import Mathlib

/-!
Verification of the rule-based quiz-generation pipeline of
`lecture-note-app` (`src/server.js`, lines 818-1266).

JavaScript strings are embedded as `List Char` (code points; every
character handled by the pipeline's rules lies in the BMP, where JS
UTF-16 lengths coincide with code-point counts).  Machine numbers are
`Nat`/`Int`.  The one JS exception the code can raise (the misplaced
fallback block in `normalizeLines` reading the out-of-scope variable
`text`) is modelled with `Except`.
-/

set_option maxRecDepth 4000

namespace QuizGen

abbrev Str := List Char

/-- Character set of the JS regex class `\s` (also used by
`String.prototype.trim`/`trimEnd`): ASCII whitespace, NBSP, Ogham space,
the U+2000-200A spaces, line/paragraph separators, narrow NBSP, medium
mathematical space, ideographic space and the BOM. -/
def isJsWS (c : Char) : Bool :=
  c = '\t' || c = '\n' || c = '\x0b' || c = '\x0c' || c = '\r' || c = ' ' ||
  c = '\u00A0' || c = '\u1680' || ('\u2000' ≤ c && c ≤ '\u200A') ||
  c = '\u2028' || c = '\u2029' || c = '\u202F' || c = '\u205F' ||
  c = '\u3000' || c = '\uFEFF'

/-- JS `s.trimEnd()`. -/
def jsTrimEnd (l : Str) : Str := (l.reverse.dropWhile isJsWS).reverse

/-- JS `s.trim()`. -/
def jsTrim (l : Str) : Str := (jsTrimEnd l).dropWhile isJsWS

/-- Does `l` start with the pattern `p`? (JS `startsWith` / regex literal.) -/
def strStartsWith : Str → Str → Bool
  | [], _ => true
  | _ :: _, [] => false
  | p :: ps, c :: cs => p = c && strStartsWith ps cs

/-- Does `l` contain `p` as a contiguous substring? (JS regex `test` with a
literal pattern.) -/
def strContains (p : Str) : Str → Bool
  | [] => strStartsWith p []
  | c :: cs => strStartsWith p (c :: cs) || strContains p cs

/-- JS `s.replace` removing every zero-width space U+200B (the first step of the per-line cleanup). -/
def removeZW (l : Str) : Str := l.filter (fun c => c ≠ '\u200B')

/-- `s.replace(/\t/g, " ")` — tabs to single spaces. -/
def tabToSpace (l : Str) : Str := l.map (fun c => if c = '\t' then ' ' else c)

/-- The scheme part of the regex `https?:\/\/`: on success returns the text
after the scheme.  (The two alternatives are mutually exclusive: they differ
at the fifth character, `s` versus `:`.) -/
def matchScheme : Str → Option Str
  | 'h' :: 't' :: 't' :: 'p' :: 's' :: ':' :: '/' :: '/' :: r => some r
  | 'h' :: 't' :: 't' :: 'p' :: ':' :: '/' :: '/' :: r => some r
  | _ => none

/-- Does a match of `/https?:\/\/\S+/` start at the head of `l`?  It does
exactly when the scheme is present and is followed by at least one
non-whitespace character. -/
def schemeHere (l : Str) : Bool :=
  match matchScheme l with
  | some (d :: _) => !isJsWS d
  | some [] => false
  | none => false

/-- Core of `s.replace(/https?:\/\/\S+/g, "")`.  A match always extends to
the end of the maximal non-whitespace run it starts in (the `\S+` is greedy),
so the scanner drops the rest of the current "word" once a match begins;
`skip` records whether we are inside such a dropped region. -/
def remURLAux : Bool → Str → Str
  | _, [] => []
  | skip, c :: cs =>
    if isJsWS c then c :: remURLAux false cs
    else if skip then remURLAux true cs
    else if schemeHere (c :: cs) then remURLAux true cs
    else c :: remURLAux false cs

/-- JS `s.replace(/https?:\/\/\S+/g, "")`. -/
def removeURLs (l : Str) : Str := remURLAux false l

/-- One normalized line: `{ raw, lineNo }` as pushed by `normalizeLines`. -/
structure NormLine where
  raw : Str
  lineNo : Nat
deriving DecidableEq, Repr

/-- Test of `/^\s*```/`: optional leading whitespace, then three backticks.
(Backtick is not `\s`, so only the maximal whitespace run matters.) -/
def isFence (l : Str) : Bool := strStartsWith ("```".toList) (l.dropWhile isJsWS)

/-- The per-line transformation of `normalizeLines` (zero-width removal, tab
to space, URL stripping, `trimEnd`), applied to a non-fence line outside a
code block. -/
def normLine (s : Str) : Str := jsTrimEnd (removeURLs (tabToSpace (removeZW s)))

/-- The `for` loop of `normalizeLines`: `inCode` is the code-fence toggle and
`i` the 1-based number of the next line. -/
def normalizeCore : Bool → Nat → List Str → List NormLine
  | _, _, [] => []
  | inCode, i, s :: rest =>
    if isFence s then normalizeCore (!inCode) (i + 1) rest
    else if inCode then normalizeCore inCode (i + 1) rest
    else ⟨normLine s, i⟩ :: normalizeCore inCode (i + 1) rest

/-- `normalizeLines(lines)` from `src/server.js:864-902`.  When the loop
keeps no line at all, the function falls into the misplaced fallback block
(`if (out.length === 0) { const t = text.replace(...) ... }`), which reads
the identifier `text` that is not in scope in `normalizeLines` — a
`ReferenceError` is thrown before anything else happens.  That abnormal exit
is modelled as `Except.error`. -/
def normalizeLines (lines : List Str) : Except String (List NormLine) :=
  match normalizeCore false 1 lines with
  | [] => Except.error "ReferenceError: text is not defined"
  | out => Except.ok out

/-- JS `cleanInline`: strip the markdown characters asterisk, underscore,
tilde and backtick, collapse every whitespace run to a single space, trim. -/
def collapseWSAux : Bool → Str → Str
  | _, [] => []
  | prev, c :: cs =>
    if isJsWS c then
      if prev then collapseWSAux true cs else ' ' :: collapseWSAux true cs
    else c :: collapseWSAux false cs

/-- `s.replace(/\s+/g, " ")`. -/
def collapseWS (l : Str) : Str := collapseWSAux false l

/-- `cleanInline(s)` from `src/server.js:975-980`. -/
def cleanInline (s : Str) : Str :=
  jsTrim (collapseWS (s.filter (fun c => !("*_~`".toList.contains c))))

/-- Split a string at every occurrence of one of the given delimiter
characters (JS `split` with a single-character alternation regex);
delimiters are dropped and empty pieces are kept. -/
def splitOnDelims (delims : List Char) : Str → List Str
  | [] => [[]]
  | c :: cs =>
    if delims.contains c then [] :: splitOnDelims delims cs
    else match splitOnDelims delims cs with
      | [] => [[c]]
      | p :: ps => (c :: p) :: ps

/-- `splitSentences(s)` from `src/server.js:982-991`: append a `|` after
every 。/！/？ and split on `|` (a literal `|` in the text therefore also
splits). -/
def splitSentences (s : Str) : List Str :=
  splitOnDelims ['|']
    (s.flatMap (fun c => if c = '。' || c = '！' || c = '？' then [c, '|'] else [c]))

/-- `trimJP(s)`: strip the character class `[\s　]` from both ends (the
ideographic space U+3000 is already in JS `\s`, so this coincides with
`trim`, but the class is kept as written in the source). -/
def isTrimJPChar (c : Char) : Bool := isJsWS c || c = '　'

/-- `trimJP` from `src/server.js:1148-1150`. -/
def trimJP (l : Str) : Str :=
  ((l.dropWhile isTrimJPChar).reverse.dropWhile isTrimJPChar).reverse

/-- Shared tail `\s+(.+)$` of the heading and bullet patterns, applied after
the marker: the greedy `\s+` takes the maximal whitespace run, backtracking
one character when nothing would remain for the mandatory `(.+)`. -/
def afterMarker (r : Str) : Option Str :=
  let w := r.takeWhile isJsWS
  if w.length = 0 then none
  else if w.length < r.length then some (r.drop w.length)
  else if 2 ≤ w.length then some (r.drop (w.length - 1))
  else none

/-- The heading test `/^(#{1,6})\s+(.+)$/` on an already-trimmed line,
returning the raw heading text (group 2).  Seven or more leading `#`
characters can never match: every shorter split leaves a `#` where `\s+`
must start. -/
def matchHeading (s : Str) : Option Str :=
  let hs := s.takeWhile (fun c => c = '#')
  if 1 ≤ hs.length && hs.length ≤ 6 then afterMarker (s.drop hs.length) else none

/-- The bullet test `/^(\-|\*|・|\d+\.)\s+(.+)$/` on an already-trimmed
line, returning the raw body (group 2).  `\d` is ASCII `[0-9]`; only the
maximal digit run can be followed by the mandatory dot. -/
def matchBullet (s : Str) : Option Str :=
  match s with
  | '-' :: r => afterMarker r
  | '*' :: r => afterMarker r
  | '・' :: r => afterMarker r
  | _ =>
    let ds := s.takeWhile (fun c => '0' ≤ c && c ≤ '9')
    if ds.length ≠ 0 && strStartsWith ['.'] (s.drop ds.length) then
      afterMarker (s.drop (ds.length + 1))
    else none

/-- A unit as produced by `toUnits`: `{ text, heading, lineNo }`. -/
structure TextUnit where
  text : Str
  heading : Str
  lineNo : Nat
deriving DecidableEq, Repr

/-- `flushBullets` from `src/server.js:913-925`: join the buffered bullet
bodies with `" / "`, trim, and emit one unit when non-empty.  `startLine`
is always set when the buffer is non-empty; `getD 0` covers the impossible
`null` case. -/
def flushBullets (heading : Str) (buf : List Str) (startLine : Option Nat) :
    List TextUnit :=
  if buf.isEmpty then []
  else
    let text := jsTrim (String.intercalate " / " (buf.map (fun b => String.mk b)) |>.toList)
    if text.isEmpty then [] else [⟨text, heading, startLine.getD 0⟩]

/-- The per-line loop of `toUnits` (`src/server.js:905-973`), threading the
current heading, the bullet buffer and its starting line number. -/
def toUnitsCore (heading : Str) (buf : List Str) (startLine : Option Nat) :
    List NormLine → List TextUnit
  | [] => flushBullets heading buf startLine
  | item :: rest =>
    let s := jsTrim item.raw
    if s.isEmpty then
      flushBullets heading buf startLine ++ toUnitsCore heading [] none rest
    else
      match matchHeading s with
      | some h =>
        flushBullets heading buf startLine ++ toUnitsCore (cleanInline h) [] none rest
      | none =>
        match matchBullet s with
        | some rawBody =>
          let body := cleanInline rawBody
          let startLine' := if buf.isEmpty then some item.lineNo else startLine
          let buf' := if body.isEmpty then buf else buf ++ [body]
          toUnitsCore heading buf' startLine' rest
        | none =>
          flushBullets heading buf startLine ++
            ((splitSentences (cleanInline s)).filterMap (fun p =>
              let t := jsTrim p
              if t.isEmpty then none else some (⟨t, heading, item.lineNo⟩ : TextUnit))) ++
            toUnitsCore heading [] none rest

/-- `toUnits(normLines)` from `src/server.js:905-973`. -/
def toUnits (normLines : List NormLine) : List TextUnit :=
  toUnitsCore [] [] none normLines

/-- A quiz candidate as built by `makeCandidate` (`src/server.js:1132-1140`);
`meta` only ever carries the field `kind`. -/
structure Cand where
  type : Str
  question : Str
  answer : Str
  source_line : Nat
  kind : Str
deriving DecidableEq, Repr

/-- `makeCandidate(c)`: question and answer are coerced to trimmed strings. -/
def makeCandidate (type question answer : Str) (source_line : Nat) (kind : Str) : Cand :=
  ⟨type, jsTrim question, jsTrim answer, source_line, kind⟩

/-- `withHeading(heading, q)` from `src/server.js:1142-1146`. -/
def withHeading (heading q : Str) : Str :=
  if heading.isEmpty then q else '【' :: heading ++ '】' :: q

/-- Try the splits `l = l.take n ++ l.drop n` for `n = lo, lo+1, …, hi` in
that order — exactly the order in which a backtracking regex engine grows a
lazy group `.{lo,hi}?`. -/
def firstSplit (lo hi : Nat) (l : Str) (f : Str → Str → Option α) : Option α :=
  (List.range' lo (hi + 1 - lo)).findSome? fun n =>
    if n ≤ l.length then f (l.take n) (l.drop n) else none

/-- Match one of the literal alternatives (tried in order) as a prefix and
continue with the rest. -/
def firstAlt (alts : List Str) (l : Str) (f : Str → Option α) : Option α :=
  alts.findSome? fun a => if strStartsWith a l then f (l.drop a.length) else none

/-- The shared tail `(?:である|のこと|を指す|という)?[。！？]?$` of the
definition pattern: each optional piece is greedy (presence tried before
absence, alternatives in written order) and the end of input must follow. -/
def defTail (r : Str) : Bool :=
  (firstAlt ["である".toList, "のこと".toList, "を指す".toList, "という".toList, []] r
    (fun r5 =>
      firstAlt ["。".toList, "！".toList, "？".toList, []] r5
        (fun r6 => if r6.isEmpty then some () else none))).isSome

/-- The definition pattern
`/^(.{2,30}?)とは、?(.{6,120}?)(?:である|のこと|を指す|という)?[。！？]?$/`
(rules 1 and 6 of `extractFromUnit`), returning the captures (term,
definition) of the match the backtracking engine finds: both groups are
lazy, so shorter splits are preferred, the term before the definition. -/
def matchDef (text : Str) : Option (Str × Str) :=
  firstSplit 2 30 text fun g1 r1 =>
    if strStartsWith ("とは".toList) r1 then
      let r2 := r1.drop 2
      let tail := fun (r3 : Str) =>
        firstSplit 6 120 r3 fun g2 r4 =>
          if defTail r4 then some (g1, g2) else none
      match r2 with
      | '、' :: r2' => (tail r2').orElse (fun _ => tail r2)
      | _ => tail r2
    else none

/-- The two-way classification pattern
`/^(.{2,30}?)は、?(.{2,40}?)(?:と|、)(.{2,40}?)(?:に分かれる|に分類される|がある|が存在する)[。！？]?$/`
(rule 2), returning (subject, a, b). -/
def matchClass2 (text : Str) : Option (Str × Str × Str) :=
  firstSplit 2 30 text fun g1 r1 =>
    if strStartsWith ("は".toList) r1 then
      let r2 := r1.drop 1
      let tail := fun (r3 : Str) =>
        firstSplit 2 40 r3 fun g2 r4 =>
          firstAlt ["と".toList, "、".toList] r4 fun r5 =>
            firstSplit 2 40 r5 fun g3 r6 =>
              firstAlt ["に分かれる".toList, "に分類される".toList,
                        "がある".toList, "が存在する".toList] r6 fun r7 =>
                firstAlt ["。".toList, "！".toList, "？".toList, []] r7 fun r8 =>
                  if r8.isEmpty then some (g1, g2, g3) else none
      match r2 with
      | '、' :: r2' => (tail r2').orElse (fun _ => tail r2)
      | _ => tail r2
    else none

/-- The enumeration pattern
`/^(.{2,30}?)(?:の特徴|の要素|のポイント|には|は)(?:、|:)?\s*(.{2,120})$/`
(rule 3), returning (subject, rest).  The final group is bounded by `$`, so
its content is whatever remains after the greedy `\s*`, which backtracks
from the maximal whitespace run until at least two characters remain. -/
def matchList (text : Str) : Option (Str × Str) :=
  firstSplit 2 30 text fun g1 r1 =>
    firstAlt ["の特徴".toList, "の要素".toList, "のポイント".toList,
              "には".toList, "は".toList] r1 fun r2 =>
      firstAlt ["、".toList, ":".toList, []] r2 fun r3 =>
        let w := (r3.takeWhile isJsWS).length
        ((List.range' 0 (w + 1)).reverse.findSome? fun k =>
          let rest := r3.drop k
          if 2 ≤ rest.length && rest.length ≤ 120 then some (g1, rest) else none)

/-- The causation pattern
`/^(.{4,80}?)(?:のため|により|なので|その結果|したがって)(.{4,80})$/`
(rule 4), returning (cause, effect); the effect is bounded by `$`. -/
def matchCause (text : Str) : Option (Str × Str) :=
  firstSplit 4 80 text fun g1 r1 =>
    firstAlt ["のため".toList, "により".toList, "なので".toList,
              "その結果".toList, "したがって".toList] r1 fun r2 =>
      if 4 ≤ r2.length && r2.length ≤ 80 then some (g1, r2) else none

/-- `splitList(s)` from `src/server.js:1152-1159`: strip one trailing
。/！/？, split on `/`、`,`・`;`：`:` with each delimiter absorbing the
following whitespace run, trim the pieces and keep the non-empty ones of
length at most 60. -/
def splitListDelim (c : Char) : Bool :=
  c = '/' || c = '、' || c = ',' || c = '・' || c = ';' || c = '：' || c = ':'

/-- The splitting scanner of `splitList`: `skip` is true just after a
delimiter, while its trailing `\s*` is being absorbed. -/
def splitListCore : Bool → Str → Str → List Str
  | _, acc, [] => [acc.reverse]
  | skip, acc, c :: cs =>
    if skip && isJsWS c then splitListCore true acc cs
    else if splitListDelim c then acc.reverse :: splitListCore true [] cs
    else splitListCore false (c :: acc) cs

/-- `splitList` from `src/server.js:1152-1159`. -/
def splitList (s : Str) : List Str :=
  let s' := match s.reverse with
    | c :: r => if c = '。' || c = '！' || c = '？' then r.reverse else s
    | [] => s
  ((splitListCore false [] s').map trimJP).filter
    (fun t => !t.isEmpty && t.length ≤ 60)

/-- The replacement table of rule 6: `def.replace(/重要/g, "不要")
.replace(/増加/g, "減少").replace(/大/g, "小")`.  Leftmost matches are
replaced and scanning resumes after the replacement (all patterns here are
non-empty, and no replacement reintroduces its own pattern). -/
def replaceAllAux : Nat → Str → Str → Str → Str
  | 0, _, _, l => l
  | _, _, _, [] => []
  | fuel + 1, pat, rep, c :: cs =>
    if strStartsWith pat (c :: cs) then
      rep ++ replaceAllAux fuel pat rep ((c :: cs).drop pat.length)
    else c :: replaceAllAux fuel pat rep cs

/-- JS `s.replace(/pat/g, rep)` for a non-empty literal pattern. -/
def strReplaceAll (pat rep l : Str) : Str := replaceAllAux l.length pat rep l

/-- `extractFromUnit(u)` from `src/server.js:994-1130`: the six ordered
pattern rules, each contributing its candidates in source order. -/
def extractFromUnit (u : TextUnit) : List Cand :=
  let text := u.text
  let heading := u.heading
  let source_line := u.lineNo
  let rule1 :=
    match matchDef text with
    | some (m1, m2) =>
      let term := trimJP m1
      let d := trimJP m2
      if !term.isEmpty && !d.isEmpty then
        [makeCandidate "fill".toList
           (withHeading heading ('「' :: term ++ "」とは何か？".toList)) d
           source_line "def".toList,
         makeCandidate "fill".toList
           (withHeading heading (term ++ "とは、（　　　）である".toList)) d
           source_line "def_blank".toList]
      else []
    | none => []
  let rule2 :=
    match matchClass2 text with
    | some (m1, m2, m3) =>
      let subject := trimJP m1
      let a := trimJP m2
      let b := trimJP m3
      if !subject.isEmpty && !a.isEmpty && !b.isEmpty then
        [makeCandidate "short".toList
           (withHeading heading (subject ++ "は何と何に分かれる？".toList))
           (a ++ " と ".toList ++ b) source_line "class2".toList]
      else []
    | none => []
  let rule3 :=
    match matchList text with
    | some (m1, m2) =>
      let subject := trimJP m1
      let rest := trimJP m2
      let items := splitList rest
      if !subject.isEmpty && 3 ≤ items.length then
        [makeCandidate "short".toList
           (withHeading heading (subject ++ "の（主な）ポイントを挙げよ".toList))
           (String.intercalate " / " ((items.take 5).map String.mk)).toList
           source_line "list".toList]
      else []
    | none => []
  let rule4 :=
    match matchCause text with
    | some (m1, m2) =>
      let cause := trimJP m1
      let effect := trimJP m2
      if !cause.isEmpty && !effect.isEmpty then
        [makeCandidate "short".toList
           (withHeading heading ("次の因果関係を答えよ：".toList ++ cause ++ " → ？".toList))
           (match effect.reverse with
            | c :: r => if c = '。' || c = '！' || c = '？' then r.reverse else effect
            | [] => effect)
           source_line "cause".toList]
      else []
    | none => []
  let rule5 :=
    if strContains "まず".toList text || strContains "次に".toList text ||
       strContains "その後".toList text || strContains "最後に".toList text then
      let steps := ((splitOnDelims ['/', '、', ','] text).map trimJP).filter
        (fun t => !t.isEmpty)
      if 3 ≤ steps.length then
        [makeCandidate "short".toList
           (withHeading heading "手順を順番に説明せよ".toList)
           (String.intercalate " → " ((steps.take 6).map String.mk)).toList
           source_line "steps".toList]
      else []
    else []
  let rule6 :=
    match matchDef text with
    | some (m1, m2) =>
      let term := trimJP m1
      let d := trimJP m2
      if !term.isEmpty && !d.isEmpty && 8 ≤ d.length && d.length ≤ 80 then
        let wrong := strReplaceAll "大".toList "小".toList
          (strReplaceAll "増加".toList "減少".toList
            (strReplaceAll "重要".toList "不要".toList d))
        if wrong ≠ d then
          [makeCandidate "tf".toList
             (withHeading heading
               ("正しい？誤り？：「".toList ++ term ++ "とは".toList ++ wrong ++ "である」".toList))
             "誤り".toList source_line "tf".toList,
           makeCandidate "tf".toList
             (withHeading heading
               ("正しい？誤り？：「".toList ++ term ++ "とは".toList ++ d ++ "である」".toList))
             "正しい".toList source_line "tf".toList]
        else []
      else []
    | none => []
  rule1 ++ rule2 ++ rule3 ++ rule4 ++ rule5 ++ rule6

/-- A candidate together with its score (`{...c, score: scoreCandidate(c)}`). -/
structure SCand where
  cand : Cand
  score : Int
deriving DecidableEq, Repr

/-- `lengthScore(len, min, max)` from `src/server.js:1196-1200`. -/
def lengthScore (len min max : Nat) : Int :=
  if len < min then -2 else if max < len then -1 else 1

/-- Test of `/(これ|それ|あれ|この|その|あの)/` — any demonstrative as a
substring. -/
def hasDemonstrative (s : Str) : Bool :=
  strContains "これ".toList s || strContains "それ".toList s ||
  strContains "あれ".toList s || strContains "この".toList s ||
  strContains "その".toList s || strContains "あの".toList s

/-- Test of `/[0-9０-９]/` — any half- or full-width digit. -/
def hasDigit (s : Str) : Bool :=
  s.any (fun c => ('0' ≤ c && c ≤ '9') || ('０' ≤ c && c ≤ '９'))

/-- Test of `/^【.+】/`: a leading `【` with a matching `】` at index two or
later (the lazy-irrelevant `.+` needs at least one character in between). -/
def startsWithHeadTag (s : Str) : Bool :=
  match s with
  | '【' :: _ :: rest => rest.contains '】'
  | _ => false

/-- `scoreCandidate(c)` from `src/server.js:1162-1194`. -/
def scoreCandidate (c : Cand) : Int :=
  let q := c.question
  let a := c.answer
  let base : Int :=
    (if c.kind = "def".toList then 6 else 0) +
    (if c.kind = "def_blank".toList then 5 else 0) +
    (if c.kind = "class2".toList then 5 else 0) +
    (if c.kind = "list".toList then 4 else 0) +
    (if c.kind = "cause".toList then 4 else 0) +
    (if c.kind = "steps".toList then 4 else 0) +
    (if c.kind = "tf".toList then 2 else 0)
  base + lengthScore q.length 15 90 + lengthScore a.length 6 120 +
    (if hasDemonstrative q then -2 else 0) +
    (if hasDemonstrative a then -1 else 0) +
    (if hasDigit q || hasDigit a then 1 else 0) +
    (if startsWithHeadTag q then 1 else 0)

/-- An ASCII word character in the sense of JS `\w` without the underscore:
the class `[\W_]` matches exactly the characters that are not ASCII
letters or digits. -/
def isWordChar (c : Char) : Bool :=
  ('a' ≤ c && c ≤ 'z') || ('A' ≤ c && c ≤ 'Z') || ('0' ≤ c && c ≤ '9')

/-- Test of `/^[\W_]+$/`: non-empty and made only of characters outside
`[A-Za-z0-9]` (every fullwidth Japanese character is such a character). -/
def allNonWord (s : Str) : Bool := !s.isEmpty && s.all (fun c => !isWordChar c)

/-- The fixed stoplist regex `/^(重要|大事|必要|不要|はい|いいえ)$/`. -/
def isStopAnswer (a : Str) : Bool :=
  a = "重要".toList || a = "大事".toList || a = "必要".toList ||
  a = "不要".toList || a = "はい".toList || a = "いいえ".toList

/-- `isGoodCandidate(c)` from `src/server.js:1202-1219`. -/
def isGoodCandidate (c : SCand) : Bool :=
  let q := c.cand.question
  let a := c.cand.answer
  if q.isEmpty || q.length < 8 then false
  else if c.cand.type ≠ "tf".toList && (a.isEmpty || a.length < 2) then false
  else if isStopAnswer a then false
  else if allNonWord q || allNonWord a then false
  else true

/-- `normalizeKey(s)` from `src/server.js:1234-1240`: strip one leading
`【…】` tag (lazy: up to the first `】` at index two or later), remove all
whitespace, remove the bracket characters, truncate to 120. -/
def findCloser : Str → Option Str
  | [] => none
  | c :: cs => if c = '】' then some cs else findCloser cs

/-- The bracket class `[「」『』（）()［］\[\]【】]` of `normalizeKey`. -/
def isKeyBracket (c : Char) : Bool :=
  "「」『』（）()［］[]【】".toList.contains c

/-- `normalizeKey` from `src/server.js:1234-1240`. -/
def normalizeKey (s : Str) : Str :=
  let stripped := match s with
    | '【' :: _ :: rest =>
      match findCloser rest with
      | some r => r
      | none => s
    | _ => s
  (((stripped.filter (fun c => !isJsWS c)).filter (fun c => !isKeyBracket c)).take 120)

/-- `dedupeCandidates` (`src/server.js:1221-1232`): keep the first candidate
per normalized question key; `seen` is the growing key set. -/
def dedupeCore (seen : List Str) : List SCand → List SCand
  | [] => []
  | c :: cs =>
    let key := normalizeKey c.cand.question
    if seen.contains key then dedupeCore seen cs
    else c :: dedupeCore (key :: seen) cs

/-- `dedupeCandidates` from `src/server.js:1221-1232`. -/
def dedupeCandidates (cands : List SCand) : List SCand := dedupeCore [] cands

/-- `candidates.sort((a, b) => b.score - a.score)`: JS sort is stable
(ES2019), and a stable descending-by-score order is unique, so it is
embedded as a stable insertion sort. -/
def insertDesc (x : SCand) : List SCand → List SCand
  | [] => [x]
  | y :: ys => if y.score ≤ x.score then x :: y :: ys else y :: insertDesc x ys

/-- Stable sort by score, descending. -/
def sortByScoreDesc : List SCand → List SCand
  | [] => []
  | x :: xs => insertDesc x (sortByScoreDesc xs)

/-- `pickWithVariety(cands, limit, allowTF)` from `src/server.js:1242-1266`.
`Math.max(0, Math.floor(limit * 0.2))` equals `limit / 5` for natural
limits (the floating-point product `limit * 0.2` rounds to the exact value
whenever `limit` is divisible by 5, and its error never crosses an integer
otherwise).  `picked.includes(x)` compares object identities; the pipeline
only ever passes deduplicated lists, whose elements are pairwise distinct
values, so value membership is the faithful embedding. -/
def pickWithVariety (cands : List SCand) (limit : Nat) (allowTF : Bool) : List SCand :=
  if !allowTF then cands.take limit
  else
    let tf := cands.filter (fun c => c.cand.type = "tf".toList)
    let other := cands.filter (fun c => c.cand.type ≠ "tf".toList)
    let tfLimit := limit / 5
    let picked := other.take (limit - tfLimit) ++ tf.take tfLimit
    let picked2 :=
      if picked.length < limit then
        picked ++ (cands.filter (fun x => !decide (x ∈ picked))).take (limit - picked.length)
      else picked
    picked2.take limit

/-- The caller-visible options of `generateQuizzesFromBodyRaw` with their
defaults `{ limit: 20, minScore: 3, allowTrueFalse: true }`. -/
structure Opts where
  limit : Nat
  minScore : Int
  allowTrueFalse : Bool
deriving DecidableEq, Repr

/-- The default options object. -/
def defaultOpts : Opts := ⟨20, 3, true⟩

/-- The final mapping to the DB shape (`src/server.js:855-860`): a falsy
(empty) type defaults to `"short"`, a missing answer to `""`, and
`source_line` is kept when numeric (it always is here). -/
structure QuizItem where
  type : Str
  question : Str
  answer : Str
  source_line : Option Nat
deriving DecidableEq, Repr

/-- The map from a picked candidate to a `QuizItem`. -/
def toQuizItem (c : SCand) : QuizItem :=
  ⟨if c.cand.type.isEmpty then "short".toList else c.cand.type,
   c.cand.question, c.cand.answer, some c.cand.source_line⟩

/-- `String(bodyRaw || "").split(/\r?\n/)`: split on `\n`, optionally
preceded by `\r`; a lone `\r` does not split. -/
def splitLinesAux (acc : Str) : Str → List Str
  | [] => [acc.reverse]
  | '\r' :: '\n' :: rest => acc.reverse :: splitLinesAux [] rest
  | '\n' :: rest => acc.reverse :: splitLinesAux [] rest
  | c :: rest => splitLinesAux (c :: acc) rest

/-- Split a body into physical lines. -/
def splitLines (body : Str) : List Str := splitLinesAux [] body

/-- `generateQuizzesFromBodyRaw(bodyRaw, options)` from
`src/server.js:818-861`; the `ReferenceError` of `normalizeLines`
propagates. -/
def generateQuizzesFromBodyRaw (bodyRaw : Str) (opts : Opts) :
    Except String (List QuizItem) :=
  match normalizeLines (splitLines bodyRaw) with
  | Except.error e => Except.error e
  | Except.ok normalized =>
    let units := toUnits normalized
    let candidates := (units.map extractFromUnit).flatten
    let scored := candidates.map (fun c => SCand.mk c (scoreCandidate c))
    let filtered := (scored.filter (fun c => opts.minScore ≤ c.score)).filter
      (fun c => isGoodCandidate c)
    let deduped := dedupeCandidates filtered
    let sorted := sortByScoreDesc deduped
    let picked := pickWithVariety sorted opts.limit opts.allowTrueFalse
    Except.ok (picked.map toQuizItem)

/-- The candidate list `generateQuizzesFromBodyRaw` builds before scoring
(normalize → units → extract), for line inputs whose normalization
succeeds. -/
def candsOfLines (lines : List Str) : List Cand :=
  match normalizeLines lines with
  | Except.ok ls => ((toUnits ls).map extractFromUnit).flatten
  | Except.error _ => []

/-- The body used to exercise the misplaced fallback branch: a single
code-fence line 29 characters long (so the raw text, which has no trailing
。/！/？ to strip, has length between 25 and 120). -/
def c5body : Str := "```ああああああああああああああああああああああああああ".toList

/-- A body whose generated quizzes are non-empty (the ASCII letters and
digits keep its candidates out of the `/^[\W_]+$/` discard). -/
def wBody : Str := "ABC1とは、DEF2GHI3JKL4である。".toList

/-- The quiz list the pipeline produces for `wBody`. -/
def wRes : List QuizItem :=
  [⟨"fill".toList, "ABC1とは、（　　　）である".toList, "DEF2GHI3JKL4".toList, some 1⟩,
   ⟨"fill".toList, "「ABC1」とは何か？".toList, "DEF2GHI3JKL4".toList, some 1⟩]

/-- Witness candidates for C4: four non-"tf" and two "tf" candidates
(first conjunct), and a pool of three "tf"-only candidates that overflows
the cap through backfill (second conjunct). -/
def c4mk (ty : String) (n : Nat) : SCand :=
  ⟨⟨ty.toList, [Char.ofNat (65 + n)], "ans".toList, n, "k".toList⟩, Int.ofNat n⟩

/-- The leading non-whitespace run of a string. -/
def leadWord (l : Str) : Str := l.takeWhile (fun c => !isJsWS c)

/-- No suffix of `l` starts a URL match. -/
def NoTrig (l : Str) : Prop := ∀ s t : Str, l = t ++ s → schemeHere s = false

example : normalizeLines ["```".toList] = Except.error "ReferenceError: text is not defined" := by rfl

example : normalizeLines ["a\tb".toList] = Except.ok [⟨"a b".toList, 1⟩] := by rfl

example : removeURLs "see https://x.com/y now".toList = "see  now".toList := by decide

example :
    toUnits [⟨"# 第1章".toList, 1⟩, ⟨"AとはBである。CはDだ。".toList, 2⟩] =
      [⟨"AとはBである。".toList, "第1章".toList, 2⟩, ⟨"CはDだ。".toList, "第1章".toList, 2⟩] := by
  decide

example :
    toUnits [⟨"- りんご".toList, 1⟩, ⟨"- みかん".toList, 2⟩, ⟨[], 3⟩] =
      [⟨"りんご / みかん".toList, [], 1⟩] := by decide

example : strReplaceAll "大".toList "小".toList "大大きい".toList = "小小きい".toList := by decide

/-- C1: claimed — for every input string (including inputs consisting only
of code-fence lines) `generateQuizzesFromBodyRaw` returns a list and never
raises.  The code violates this: on the single line "```" every line is
discarded by the fence toggle, the misplaced fallback block runs, and its
first statement reads the out-of-scope identifier `text`, raising a
`ReferenceError`. -/
theorem C1_fence_only_input_raises :
    generateQuizzesFromBodyRaw "```".toList defaultOpts =
      Except.error "ReferenceError: text is not defined" := by rfl

/-- C5: claimed — when normalization keeps zero lines and the raw text
(after stripping a trailing 。/！/？) has length between 25 and 120, the
pipeline emits a single fallback "fill" candidate.  The code instead raises:
the fallback block sits inside `normalizeLines` where `text`, `heading` and
`source_line` are not in scope, so the branch that should synthesize the
candidate throws a `ReferenceError` on this very input (29 characters, all
lines discarded as code fence). -/
theorem C5_fallback_branch_raises :
    normalizeCore false 1 (splitLines c5body) = [] ∧ c5body.length = 29 ∧
      generateQuizzesFromBodyRaw c5body defaultOpts =
        Except.error "ReferenceError: text is not defined" :=
  ⟨by decide, by decide, by rfl⟩

/-- C8: given the line 光合成とは、植物が光エネルギーを使って栄養を作る過程である。,
extraction yields a `def` candidate whose question contains 光合成 and a
`def_blank` candidate, and no `tf` candidate (the antonym replacement table
does not change this sentence, and no-op replacements are discarded). -/
theorem C8_photosynthesis_extraction :
    (∃ c ∈ candsOfLines ["光合成とは、植物が光エネルギーを使って栄養を作る過程である。".toList],
        c.kind = "def".toList ∧ strContains "光合成".toList c.question = true) ∧
    (∃ c ∈ candsOfLines ["光合成とは、植物が光エネルギーを使って栄養を作る過程である。".toList],
        c.kind = "def_blank".toList) ∧
    (∀ c ∈ candsOfLines ["光合成とは、植物が光エネルギーを使って栄養を作る過程である。".toList],
        c.type ≠ "tf".toList) := by
  decide

/-- C9, counterexample: on the literal lines `# 第1章` / `AとはBである。` /
(blank) / `CとはDである。` the extractor produces no candidates at all — the
term `A` is shorter than the definition pattern's 2-character minimum and
`Bである` shorter than its 6-character minimum — so the claimed two
`def` candidates (prefixed with 【第1章】) do not exist. -/
theorem C9_single_char_terms_yield_nothing :
    candsOfLines ["# 第1章".toList, "AとはBである。".toList, [],
      "CとはDである。".toList] = [] := by decide

/-- C9, amended: with terms and definitions meeting the definition
pattern's length minima (term at least 2 characters, definition at least
6), the heading persists across the blank line and both resulting `def`
candidates' questions are prefixed with 【第1章】. -/
theorem C9_heading_persists_across_blank_line :
    ((candsOfLines ["# 第1章".toList, "AAとはBBBBBBである。".toList, [],
        "CCとはDDDDDDである。".toList]).filter
      (fun c => c.kind = "def".toList)).map (fun c => c.question) =
      ["【第1章】「AA」とは何か？".toList, "【第1章】「CC」とは何か？".toList] := by
  decide

/-- The selector returns at most `limit` candidates: both of its branches
end in a `take limit`. -/
theorem pickWithVariety_length_le (cands : List SCand) (limit : Nat) (allowTF : Bool) :
    (pickWithVariety cands limit allowTF).length ≤ limit := by
  unfold pickWithVariety
  split
  · simp
  · simp

/-- C2: for every input and every configured limit, the list returned by
`generateQuizzesFromBodyRaw` has length at most the limit. -/
theorem C2_result_length_le_limit (bodyRaw : Str) (opts : Opts)
    (res : List QuizItem)
    (h : generateQuizzesFromBodyRaw bodyRaw opts = Except.ok res) :
    res.length ≤ opts.limit := by
  unfold generateQuizzesFromBodyRaw at h
  split at h
  · exact absurd h (by simp)
  · simp only [Except.ok.injEq] at h
    subst h
    simpa using pickWithVariety_length_le _ _ _

/-- Concrete run of the pipeline used by the witnesses. -/
theorem wRun : generateQuizzesFromBodyRaw wBody defaultOpts = Except.ok wRes := by rfl

/-- Witness for C2 at a concrete input. -/
theorem C2_witness : wRes.length ≤ defaultOpts.limit :=
  C2_result_length_le_limit wBody defaultOpts wRes wRun

/-- Every candidate built by any of the six extraction rules carries one of
the literal types `"fill"`, `"short"`, `"tf"`. -/
theorem extractFromUnit_type (u : TextUnit) (c : Cand) (hc : c ∈ extractFromUnit u) :
    c.type = "fill".toList ∨ c.type = "short".toList ∨ c.type = "tf".toList := by
  unfold extractFromUnit at hc
  simp only [List.mem_append] at hc
  rcases hc with ((((h | h) | h) | h) | h) | h <;>
    (repeat' split at h) <;>
    simp only [List.mem_cons, List.mem_singleton, List.not_mem_nil, or_false] at h <;>
    first
    | exact h.elim
    | (rcases h with rfl | rfl <;> simp [makeCandidate])

/-- `dedupeCore` only keeps elements of its input. -/
theorem dedupeCore_subset (seen : List Str) (l : List SCand) :
    ∀ c ∈ dedupeCore seen l, c ∈ l := by
  induction l generalizing seen with
  | nil => simp [dedupeCore]
  | cons d ds ih =>
    intro c hc
    simp only [dedupeCore] at hc
    split at hc
    · exact List.mem_cons_of_mem _ (ih _ _ hc)
    · rcases List.mem_cons.mp hc with rfl | hc'
      · exact List.mem_cons_self _ _
      · exact List.mem_cons_of_mem _ (ih _ _ hc')

/-- Inserting into the sorted list is a permutation of consing. -/
theorem insertDesc_perm (x : SCand) (l : List SCand) :
    (insertDesc x l).Perm (x :: l) := by
  induction l with
  | nil => rfl
  | cons y ys ih =>
    unfold insertDesc
    split
    · rfl
    · exact ((ih.cons y).trans (List.Perm.swap x y ys))

/-- The embedded stable sort permutes its input. -/
theorem sortByScoreDesc_perm (l : List SCand) : (sortByScoreDesc l).Perm l := by
  induction l with
  | nil => rfl
  | cons x xs ih => exact (insertDesc_perm x (sortByScoreDesc xs)).trans (ih.cons x)

/-- The selector only returns candidates from its input list. -/
theorem pickWithVariety_subset (cands : List SCand) (limit : Nat) (allowTF : Bool) :
    ∀ x ∈ pickWithVariety cands limit allowTF, x ∈ cands := by
  intro x hx
  unfold pickWithVariety at hx
  split at hx
  · exact List.take_subset _ _ hx
  · simp only at hx
    have hx1 := List.take_subset _ _ hx
    split at hx1
    · rcases List.mem_append.mp hx1 with h | h
      · rcases List.mem_append.mp h with h2 | h2
        · exact (List.mem_filter.mp (List.take_subset _ _ h2)).1
        · exact (List.mem_filter.mp (List.take_subset _ _ h2)).1
      · exact (List.mem_filter.mp (List.take_subset _ _ h)).1
    · rcases List.mem_append.mp hx1 with h | h
      · exact (List.mem_filter.mp (List.take_subset _ _ h)).1
      · exact (List.mem_filter.mp (List.take_subset _ _ h)).1

/-- C10: every item returned by `generateQuizzesFromBodyRaw` has type
`"fill"`, `"short"` or `"tf"`; the types `"term"` and `"question"` of the
spec's candidate enum never appear. -/
theorem C10_result_types (bodyRaw : Str) (opts : Opts) (res : List QuizItem)
    (h : generateQuizzesFromBodyRaw bodyRaw opts = Except.ok res) :
    ∀ x ∈ res, x.type = "fill".toList ∨ x.type = "short".toList ∨
      x.type = "tf".toList := by
  unfold generateQuizzesFromBodyRaw at h
  split at h
  · exact absurd h (by simp)
  · simp only [Except.ok.injEq] at h
    subst h
    intro x hx
    simp only [List.mem_map] at hx
    obtain ⟨sc, hsc, rfl⟩ := hx
    have h1 : sc ∈ sortByScoreDesc (dedupeCandidates _) :=
      pickWithVariety_subset _ _ _ _ hsc
    have h2 := (sortByScoreDesc_perm _).mem_iff.mp h1
    have h3 := dedupeCore_subset _ _ _ h2
    have h4 := (List.mem_filter.mp h3).1
    have h5 := (List.mem_filter.mp h4).1
    simp only [List.mem_map] at h5
    obtain ⟨c0, hc0, rfl⟩ := h5
    simp only [List.mem_flatten, List.mem_map] at hc0
    obtain ⟨l, ⟨u, _, rfl⟩, hcl⟩ := hc0
    rcases extractFromUnit_type u c0 hcl with ht | ht | ht <;>
      simp [toQuizItem, ht]

/-- Witness for C10 at a concrete input. -/
theorem C10_witness :
    (⟨"fill".toList, "「ABC1」とは何か？".toList, "DEF2GHI3JKL4".toList,
        some 1⟩ : QuizItem).type = "fill".toList ∨
      (⟨"fill".toList, "「ABC1」とは何か？".toList, "DEF2GHI3JKL4".toList,
        some 1⟩ : QuizItem).type = "short".toList ∨
      (⟨"fill".toList, "「ABC1」とは何か？".toList, "DEF2GHI3JKL4".toList,
        some 1⟩ : QuizItem).type = "tf".toList :=
  C10_result_types wBody defaultOpts wRes wRun _ (by decide)

/-- Unfolding of `isGoodCandidate`: a candidate passes exactly when its
question has at least 8 characters, a non-"tf" candidate has an answer of
at least 2 characters, the answer is not on the stoplist, and neither
question nor answer consists entirely of characters outside `[A-Za-z0-9]`. -/
theorem isGoodCandidate_iff (c : SCand) :
    isGoodCandidate c = true ↔
      8 ≤ c.cand.question.length ∧
      (c.cand.type ≠ "tf".toList → c.cand.answer ≠ [] ∧ 2 ≤ c.cand.answer.length) ∧
      isStopAnswer c.cand.answer = false ∧
      allNonWord c.cand.question = false ∧ allNonWord c.cand.answer = false := by
  unfold isGoodCandidate
  simp only []
  split_ifs with h1 h2 h3 h4
  · simp only [Bool.or_eq_true, List.isEmpty_iff, decide_eq_true_eq] at h1
    simp only [false_iff]
    rintro ⟨h8, -, -, -, -⟩
    rcases h1 with h1 | h1
    · rw [h1] at h8; simp at h8
    · omega
  · simp only [Bool.and_eq_true, Bool.or_eq_true, List.isEmpty_iff,
      decide_eq_true_eq] at h2
    simp only [false_iff]
    rintro ⟨-, himp, -, -, -⟩
    obtain ⟨hne, hlen⟩ := himp h2.1
    rcases h2.2 with h2' | h2'
    · exact hne h2'
    · omega
  · simp only [false_iff]
    rintro ⟨-, -, hs, -, -⟩
    rw [h3] at hs
    exact absurd hs (by simp)
  · simp only [Bool.or_eq_true] at h4
    simp only [false_iff]
    rintro ⟨-, -, -, hw1, hw2⟩
    rcases h4 with h4 | h4
    · rw [h4] at hw1; exact absurd hw1 (by simp)
    · rw [h4] at hw2; exact absurd hw2 (by simp)
  · simp only [true_iff]
    simp only [Bool.or_eq_true, List.isEmpty_iff, decide_eq_true_eq, not_or] at h1
    simp only [Bool.and_eq_true, Bool.or_eq_true, List.isEmpty_iff,
      decide_eq_true_eq, not_and, not_or] at h2
    simp only [Bool.not_eq_true] at h3 h4
    simp only [Bool.or_eq_false_iff] at h4
    refine ⟨by omega, ?_, h3, h4.1, h4.2⟩
    intro htf
    obtain ⟨hne, hlen⟩ := h2 htf
    exact ⟨hne, by omega⟩

/-- C6: a scored candidate survives the post-scoring filter of
`generateQuizzesFromBodyRaw` iff its score reaches the configured minimum,
its question has at least 8 characters, (when not "tf") its answer is
non-empty with at least 2 characters, its answer is not a stoplist word,
and neither question nor answer is entirely non-word characters; a
candidate whose question has length 5 is always discarded. -/
theorem C6_filter_characterization (l : List SCand) (m : Int) (c : SCand) :
    (c ∈ (l.filter (fun x => m ≤ x.score)).filter (fun x => isGoodCandidate x) ↔
      c ∈ l ∧ m ≤ c.score ∧ 8 ≤ c.cand.question.length ∧
        (c.cand.type ≠ "tf".toList → c.cand.answer ≠ [] ∧ 2 ≤ c.cand.answer.length) ∧
        isStopAnswer c.cand.answer = false ∧
        allNonWord c.cand.question = false ∧ allNonWord c.cand.answer = false) ∧
    (c.cand.question.length = 5 →
      c ∉ (l.filter (fun x => m ≤ x.score)).filter (fun x => isGoodCandidate x)) := by
  constructor
  · simp only [List.mem_filter, decide_eq_true_eq, isGoodCandidate_iff]
    tauto
  · intro h5 hc
    have hg := (isGoodCandidate_iff c).mp (List.mem_filter.mp hc).2
    omega

/-- Witness for C6: a concrete length-5-question candidate is discarded. -/
theorem C6_witness :
    (⟨⟨"fill".toList, "あいうえお".toList, "こたえです".toList, 1, "def".toList⟩, 10⟩ : SCand) ∉
      (([⟨⟨"fill".toList, "あいうえお".toList, "こたえです".toList, 1, "def".toList⟩, 10⟩] :
          List SCand).filter (fun x => (3 : Int) ≤ x.score)).filter
        (fun x => isGoodCandidate x) :=
  (C6_filter_characterization _ 3 _).2 (by decide)

/-- When enough non-"tf" candidates exist to fill their quota, the selector
keeps at most `limit / 5` "tf" candidates: the pre-backfill list contains at
most that many, and backfill can then only add non-"tf" leftovers. -/
theorem pickWithVariety_countTF_le (cs : List SCand) (L : Nat)
    (hother : L - L / 5 ≤ (cs.filter (fun c => c.cand.type ≠ "tf".toList)).length) :
    (pickWithVariety cs L true).countP (fun c => c.cand.type = "tf".toList) ≤ L / 5 := by
  unfold pickWithVariety
  simp only [Bool.not_true, Bool.false_eq_true, if_false]
  have hA0 : ∀ n, ((cs.filter (fun c => c.cand.type ≠ "tf".toList)).take n).countP
      (fun c => c.cand.type = "tf".toList) = 0 := by
    intro n
    refine List.countP_eq_zero.mpr ?_
    intro x hx
    have := (List.mem_filter.mp (List.take_subset _ _ hx)).2
    simp only [decide_eq_true_eq] at this ⊢
    exact this
  have hBle : ((cs.filter (fun c => c.cand.type = "tf".toList)).take (L / 5)).countP
      (fun c => c.cand.type = "tf".toList) ≤ L / 5 := by
    refine Nat.le_trans (List.countP_le_length _) ?_
    rw [List.length_take]
    omega
  split_ifs with hlt
  · -- backfill happened: under `hother` the "tf" pot ran short, so every
    -- "tf" candidate is already inside the pre-backfill list and the
    -- backfilled leftovers are all non-"tf"
    have hlenA : ((cs.filter (fun c => c.cand.type ≠ "tf".toList)).take (L - L / 5)).length
        = L - L / 5 := by
      rw [List.length_take]; omega
    rw [List.length_append, hlenA] at hlt
    have hlenB := List.length_take (L / 5) (cs.filter (fun c => c.cand.type = "tf".toList))
    have hcapL : L / 5 ≤ L := Nat.div_le_self L 5
    have htfshort : (cs.filter (fun c => c.cand.type = "tf".toList)).length < L / 5 := by
      omega
    have htfall : (cs.filter (fun c => c.cand.type = "tf".toList)).take (L / 5)
        = cs.filter (fun c => c.cand.type = "tf".toList) :=
      List.take_of_length_le (by omega)
    refine Nat.le_trans (List.Sublist.countP_le _ (List.take_sublist _ _)) ?_
    rw [List.countP_append, List.countP_append, hA0]
    have hbf : (((cs.filter (fun x =>
        !decide (x ∈ (cs.filter (fun c => c.cand.type ≠ "tf".toList)).take (L - L / 5) ++
          (cs.filter (fun c => c.cand.type = "tf".toList)).take (L / 5)))).take
        (L - ((cs.filter (fun c => c.cand.type ≠ "tf".toList)).take (L - L / 5) ++
          (cs.filter (fun c => c.cand.type = "tf".toList)).take (L / 5)).length)).countP
        (fun c => c.cand.type = "tf".toList)) = 0 := by
      refine List.countP_eq_zero.mpr ?_
      intro x hx
      have hx' := List.mem_filter.mp (List.take_subset _ _ hx)
      simp only [decide_eq_true_eq]
      intro htf
      have hxtf : x ∈ cs.filter (fun c => c.cand.type = "tf".toList) :=
        List.mem_filter.mpr ⟨hx'.1, by simp [htf]⟩
      have hxB : x ∈ (cs.filter (fun c => c.cand.type = "tf".toList)).take (L / 5) := by
        rw [htfall]; exact hxtf
      have hxpicked : x ∈ (cs.filter (fun c => c.cand.type ≠ "tf".toList)).take (L - L / 5) ++
          (cs.filter (fun c => c.cand.type = "tf".toList)).take (L / 5) :=
        List.mem_append.mpr (Or.inr hxB)
      have hcon := hx'.2
      simp only [Bool.not_eq_true', decide_eq_false_iff_not] at hcon
      exact hcon hxpicked
    rw [hbf]
    omega
  · -- no backfill: the result is a sublist of quota ++ tf-pot
    refine Nat.le_trans (List.Sublist.countP_le _ (List.take_sublist _ _)) ?_
    rw [List.countP_append, hA0]
    omega

/-- When the non-"tf" candidates fit inside their quota, the selector keeps
all of them: they all enter the pre-backfill list, whose length never
exceeds the limit. -/
theorem pickWithVariety_other_all_kept (cs : List SCand) (L : Nat)
    (hother : (cs.filter (fun c => c.cand.type ≠ "tf".toList)).length ≤ L - L / 5) :
    ∀ x ∈ cs, x.cand.type ≠ "tf".toList → x ∈ pickWithVariety cs L true := by
  intro x hx htf
  unfold pickWithVariety
  simp only [Bool.not_true, Bool.false_eq_true, if_false]
  have hxo : x ∈ cs.filter (fun c => c.cand.type ≠ "tf".toList) :=
    List.mem_filter.mpr ⟨hx, by simpa using htf⟩
  have hotake : (cs.filter (fun c => c.cand.type ≠ "tf".toList)).take (L - L / 5)
      = cs.filter (fun c => c.cand.type ≠ "tf".toList) :=
    List.take_of_length_le hother
  have hxp : x ∈ (cs.filter (fun c => c.cand.type ≠ "tf".toList)).take (L - L / 5) ++
      (cs.filter (fun c => c.cand.type = "tf".toList)).take (L / 5) := by
    refine List.mem_append.mpr (Or.inl ?_)
    rw [hotake]; exact hxo
  have hplen : ((cs.filter (fun c => c.cand.type ≠ "tf".toList)).take (L - L / 5) ++
      (cs.filter (fun c => c.cand.type = "tf".toList)).take (L / 5)).length ≤ L := by
    rw [List.length_append, List.length_take, List.length_take]
    have := Nat.div_le_self L 5
    omega
  split_ifs with hlt
  · rw [List.take_append_eq_append_take, List.take_of_length_le hplen]
    exact List.mem_append.mpr (Or.inl hxp)
  · rw [List.take_of_length_le hplen]
    exact hxp

/-- C4: with the true/false flag on, the pre-backfill stage keeps at most
`floor(L*0.2) = L / 5` "tf" candidates (whenever the non-"tf" pool can fill
its own quota the result respects the cap), and for `L ≥ 5` the cap can
only be exceeded through backfill after the non-"tf" pool is exhausted: in
that case the non-"tf" pool is smaller than its quota and is kept whole. -/
theorem C4_tf_cap (cs : List SCand) (L : Nat) :
    (L - L / 5 ≤ (cs.filter (fun c => c.cand.type ≠ "tf".toList)).length →
      (pickWithVariety cs L true).countP (fun c => c.cand.type = "tf".toList) ≤ L / 5) ∧
    (5 ≤ L →
      L / 5 < (pickWithVariety cs L true).countP (fun c => c.cand.type = "tf".toList) →
      (cs.filter (fun c => c.cand.type ≠ "tf".toList)).length < L - L / 5 ∧
        ∀ x ∈ cs, x.cand.type ≠ "tf".toList → x ∈ pickWithVariety cs L true) := by
  refine ⟨pickWithVariety_countTF_le cs L, ?_⟩
  intro _ hcount
  have hother : (cs.filter (fun c => c.cand.type ≠ "tf".toList)).length < L - L / 5 := by
    by_contra hc
    push_neg at hc
    exact absurd (pickWithVariety_countTF_le cs L hc) (by omega)
  exact ⟨hother, pickWithVariety_other_all_kept cs L (Nat.le_of_lt hother)⟩

/-- Witness for C4 at concrete inputs: with four non-"tf" candidates
available the result keeps at most one "tf" item (L = 5), and with only
"tf" candidates the backfilled result exceeds the cap while the (empty)
non-"tf" pool is below quota. -/
theorem C4_witness :
    ((pickWithVariety [c4mk "short" 0, c4mk "short" 1, c4mk "short" 2, c4mk "short" 3,
        c4mk "tf" 4, c4mk "tf" 5] 5 true).countP
      (fun c => c.cand.type = "tf".toList) ≤ 5 / 5) ∧
    (([c4mk "tf" 0, c4mk "tf" 1, c4mk "tf" 2].filter
        (fun c => c.cand.type ≠ "tf".toList)).length < 5 - 5 / 5) :=
  ⟨(C4_tf_cap [c4mk "short" 0, c4mk "short" 1, c4mk "short" 2, c4mk "short" 3,
      c4mk "tf" 4, c4mk "tf" 5] 5).1 (by decide),
   ((C4_tf_cap [c4mk "tf" 0, c4mk "tf" 1, c4mk "tf" 2] 5).2 (by decide) (by decide)).1⟩

/-- The deduplicator emits candidates with pairwise distinct normalized
keys, none of which was already in `seen`. -/
theorem dedupeCore_keys (seen : List Str) (l : List SCand) :
    (∀ c ∈ dedupeCore seen l, normalizeKey c.cand.question ∉ seen) ∧
    (dedupeCore seen l).Pairwise
      (fun a b => normalizeKey a.cand.question ≠ normalizeKey b.cand.question) := by
  induction l generalizing seen with
  | nil => simp [dedupeCore]
  | cons d ds ih =>
    simp only [dedupeCore]
    split_ifs with hseen
    · exact ih seen
    · have hd_not : normalizeKey d.cand.question ∉ seen := by
        intro hmem
        simp [hmem] at hseen
      obtain ⟨ihmem, ihpair⟩ := ih (normalizeKey d.cand.question :: seen)
      constructor
      · intro c hc
        rcases List.mem_cons.mp hc with rfl | hc'
        · exact hd_not
        · intro hmem
          exact ihmem c hc' (List.mem_cons_of_mem _ hmem)
      · refine List.Pairwise.cons ?_ ihpair
        intro c hc heq
        exact ihmem c hc (heq ▸ List.mem_cons_self _ _)

/-- First-kept characterization of the deduplicator: a candidate appears in
its output exactly when its key is fresh with respect to `seen` and it is
the first input candidate carrying its own normalized key. -/
theorem dedupeCore_mem_iff (seen : List Str) (l : List SCand) (c : SCand) :
    c ∈ dedupeCore seen l ↔
      normalizeKey c.cand.question ∉ seen ∧
      (l.filter (fun d =>
        normalizeKey d.cand.question = normalizeKey c.cand.question)).head? = some c := by
  induction l generalizing seen with
  | nil => simp [dedupeCore]
  | cons d ds ih =>
    simp only [dedupeCore]
    by_cases hd : normalizeKey d.cand.question = normalizeKey c.cand.question
    · split_ifs with hseen
      · have hkc : normalizeKey c.cand.question ∈ seen := by
          rw [← hd]
          simpa using hseen
        rw [ih seen]
        constructor
        · rintro ⟨hns, -⟩
          exact absurd hkc hns
        · rintro ⟨hns, -⟩
          exact absurd hkc hns
      · have hd_not : normalizeKey d.cand.question ∉ seen := by
          intro hmem
          simp [hmem] at hseen
        rw [List.mem_cons, ih (normalizeKey d.cand.question :: seen)]
        have hfilter : (List.filter (fun x =>
            decide (normalizeKey x.cand.question = normalizeKey c.cand.question)) (d :: ds)) =
            d :: List.filter (fun x =>
              decide (normalizeKey x.cand.question = normalizeKey c.cand.question)) ds := by
          simp [List.filter_cons, hd]
        rw [hfilter, List.head?_cons]
        constructor
        · rintro (rfl | ⟨hns, -⟩)
          · exact ⟨hd ▸ hd_not, rfl⟩
          · exact absurd (List.mem_cons.mpr (Or.inl hd.symm)) hns
        · rintro ⟨-, hhead⟩
          simp only [Option.some.injEq] at hhead
          exact Or.inl hhead.symm
    · have hfilter : (List.filter (fun d =>
          decide (normalizeKey d.cand.question = normalizeKey c.cand.question)) (d :: ds)) =
          List.filter (fun d =>
            decide (normalizeKey d.cand.question = normalizeKey c.cand.question)) ds := by
        simp [List.filter_cons, hd]
      split_ifs with hseen
      · rw [ih seen, hfilter]
      · rw [List.mem_cons, ih (normalizeKey d.cand.question :: seen), hfilter]
        constructor
        · rintro (rfl | ⟨hns, hh⟩)
          · exact absurd rfl hd
          · refine ⟨fun hmem => hns (List.mem_cons_of_mem _ hmem), hh⟩
        · rintro ⟨hns, hh⟩
          refine Or.inr ⟨?_, hh⟩
          intro hmem
          rcases List.mem_cons.mp hmem with heq | hmem'
          · exact hd heq.symm
          · exact hns hmem'

/-- The selector never repeats a candidate when its input has no
duplicates: the two quota segments are disjoint type-wise, and backfill
explicitly excludes already-picked candidates. -/
theorem pickWithVariety_nodup (cs : List SCand) (L : Nat) (b : Bool)
    (h : cs.Nodup) : (pickWithVariety cs L b).Nodup := by
  unfold pickWithVariety
  split_ifs with hb
  · exact List.Nodup.sublist (List.take_sublist _ _) h
  · simp only []
    refine List.Nodup.sublist (List.take_sublist _ _) ?_
    have hpicked : ((cs.filter (fun c => c.cand.type ≠ "tf".toList)).take (L - L / 5) ++
        (cs.filter (fun c => c.cand.type = "tf".toList)).take (L / 5)).Nodup := by
      refine List.nodup_append.mpr ⟨?_, ?_, ?_⟩
      · exact List.Nodup.sublist
          ((List.take_sublist _ _).trans (List.filter_sublist _)) h
      · exact List.Nodup.sublist
          ((List.take_sublist _ _).trans (List.filter_sublist _)) h
      · intro x hx1 hx2
        have h1 := (List.mem_filter.mp (List.take_subset _ _ hx1)).2
        have h2 := (List.mem_filter.mp (List.take_subset _ _ hx2)).2
        simp only [decide_eq_true_eq] at h1 h2
        exact h1 h2
    split_ifs with hlt
    · refine List.nodup_append.mpr ⟨hpicked, ?_, ?_⟩
      · exact List.Nodup.sublist
          ((List.take_sublist _ _).trans (List.filter_sublist _)) h
      · intro x hx1 hx2
        have h2 := (List.mem_filter.mp (List.take_subset _ _ hx2)).2
        simp only [Bool.not_eq_true', decide_eq_false_iff_not] at h2
        exact h2 hx1
    · exact hpicked

/-- The combination dedupe → sort → select always yields pairwise distinct
normalized question keys. -/
theorem picked_pairwise_key (fl : List SCand) (L : Nat) (b : Bool) :
    (pickWithVariety (sortByScoreDesc (dedupeCandidates fl)) L b).Pairwise
      (fun a b => normalizeKey a.cand.question ≠ normalizeKey b.cand.question) := by
  have hsymm : Symmetric (fun a b : SCand =>
      normalizeKey a.cand.question ≠ normalizeKey b.cand.question) :=
    fun _ _ hx he => hx he.symm
  have hded := (dedupeCore_keys [] fl).2
  have hsortpair : (sortByScoreDesc (dedupeCandidates fl)).Pairwise
      (fun a b => normalizeKey a.cand.question ≠ normalizeKey b.cand.question) :=
    ((sortByScoreDesc_perm _).pairwise_iff (fun hab => hsymm hab)).mpr hded
  have hsortnodup : (sortByScoreDesc (dedupeCandidates fl)).Nodup :=
    List.Pairwise.imp (fun hne => fun he => hne (he ▸ rfl)) hsortpair
  have hpicknodup := pickWithVariety_nodup _ L b hsortnodup
  refine List.Pairwise.imp_of_mem ?_ hpicknodup
  intro a b ha hb hne
  exact List.Pairwise.forall hsymm hsortpair
    (pickWithVariety_subset _ _ _ a ha) (pickWithVariety_subset _ _ _ b hb) hne

/-- C3: the pipeline output never contains two items with equal normalized
question keys, and among input candidates sharing a key the deduplicator
keeps exactly the first one in original order. -/
theorem C3_dedup_invariant (bodyRaw : Str) (opts : Opts) (res : List QuizItem)
    (h : generateQuizzesFromBodyRaw bodyRaw opts = Except.ok res) :
    res.Pairwise (fun a b => normalizeKey a.question ≠ normalizeKey b.question) ∧
    ∀ (l : List SCand) (c : SCand),
      c ∈ dedupeCandidates l ↔
        (l.filter (fun d =>
          normalizeKey d.cand.question = normalizeKey c.cand.question)).head? = some c := by
  constructor
  · unfold generateQuizzesFromBodyRaw at h
    split at h
    · exact absurd h (by simp)
    · simp only [Except.ok.injEq] at h
      subst h
      rw [List.pairwise_map]
      exact picked_pairwise_key _ _ _
  · intro l c
    rw [dedupeCandidates, dedupeCore_mem_iff]
    simp

/-- Witness for C3 at a concrete input. -/
theorem C3_witness :
    wRes.Pairwise (fun a b => normalizeKey a.question ≠ normalizeKey b.question) :=
  (C3_dedup_invariant wBody defaultOpts wRes wRun).1

/-- C7, counterexample: line normalization is not idempotent.  Removing the
zero-width space from "​```" leaves the text "```", which the second
normalization pass parses as a code fence: the fence toggle then swallows
the following line, so renormalizing the normalized texts keeps only "b". -/
theorem C7_normalization_not_idempotent :
    (normalizeLines [('\u200B' :: "```".toList), "a".toList,
        ('\u200B' :: "```".toList), "b".toList]).map (fun o => o.map (fun nl => nl.raw)) =
      Except.ok ["```".toList, "a".toList, "```".toList, "b".toList] ∧
    (normalizeLines ["```".toList, "a".toList, "```".toList, "b".toList]).map
        (fun o => o.map (fun nl => nl.raw)) =
      Except.ok ["b".toList] ∧
    (["```".toList, "a".toList, "```".toList, "b".toList] : List Str) ≠ ["b".toList] :=
  ⟨by rfl, by rfl, by decide⟩

/-- Characters produced by the zero-width and tab passes: no zero-width
space and no tab survives them. -/
theorem tabToSpace_removeZW_chars (s : Str) :
    ∀ c ∈ tabToSpace (removeZW s), c ≠ '\u200B' ∧ c ≠ '\t' := by
  intro c hc
  unfold tabToSpace at hc
  rw [List.mem_map] at hc
  obtain ⟨c0, hc0, rfl⟩ := hc
  have h0 := (List.mem_filter.mp hc0).2
  constructor
  · split_ifs <;> simp_all
  · split_ifs with ht
    · simp
    · exact ht

/-- `remURLAux` only deletes characters. -/
theorem mem_remURLAux (b : Bool) (l : Str) : ∀ c ∈ remURLAux b l, c ∈ l := by
  induction l generalizing b with
  | nil => simp [remURLAux]
  | cons d ds ih =>
    intro c hc
    unfold remURLAux at hc
    split_ifs at hc with h1 h2 h3
    · rcases List.mem_cons.mp hc with rfl | hc'
      · exact List.mem_cons_self _ _
      · exact List.mem_cons_of_mem _ (ih _ _ hc')
    · exact List.mem_cons_of_mem _ (ih _ _ hc)
    · exact List.mem_cons_of_mem _ (ih _ _ hc)
    · rcases List.mem_cons.mp hc with rfl | hc'
      · exact List.mem_cons_self _ _
      · exact List.mem_cons_of_mem _ (ih _ _ hc')

/-- `jsTrimEnd` only deletes characters. -/
theorem mem_jsTrimEnd (l : Str) : ∀ c ∈ jsTrimEnd l, c ∈ l := by
  intro c hc
  unfold jsTrimEnd at hc
  rw [List.mem_reverse] at hc
  have := (List.dropWhile_sublist _).subset hc
  simpa using this

/-- Every character of a normalized line survives from the tab/zero-width
passes, hence is neither a zero-width space nor a tab. -/
theorem normLine_chars (s : Str) : ∀ c ∈ normLine s, c ≠ '\u200B' ∧ c ≠ '\t' := by
  intro c hc
  exact tabToSpace_removeZW_chars s c
    (mem_remURLAux false _ c (mem_jsTrimEnd _ c hc))

/-- Shape of a successful scheme match. -/
theorem matchScheme_eq (l r : Str) (h : matchScheme l = some r) :
    l = 'h' :: 't' :: 't' :: 'p' :: 's' :: ':' :: '/' :: '/' :: r ∨
    l = 'h' :: 't' :: 't' :: 'p' :: ':' :: '/' :: '/' :: r := by
  unfold matchScheme at h
  split at h
  · exact Or.inl (by simp_all)
  · exact Or.inr (by simp_all)
  · exact absurd h (by simp)

/-- A whitespace character can never open a scheme match. -/
theorem schemeHere_false_of_ws (c : Char) (x : Str) (h : isJsWS c = true) :
    schemeHere (c :: x) = false := by
  cases hs : schemeHere (c :: x)
  · rfl
  · exfalso
    unfold schemeHere at hs
    cases hm : matchScheme (c :: x) with
    | none => rw [hm] at hs; simp at hs
    | some r =>
      rcases matchScheme_eq _ _ hm with hsh | hsh <;>
        (have hc : c = 'h' := by injection hsh) <;>
        (rw [hc] at h; exact absurd h (by decide))

/-- A scheme match survives appending more text on the right. -/
theorem schemeHere_append (p q : Str) (h : schemeHere p = true) :
    schemeHere (p ++ q) = true := by
  unfold schemeHere at h ⊢
  cases hm : matchScheme p with
  | none => rw [hm] at h; simp at h
  | some r =>
    rw [hm] at h
    cases r with
    | nil => simp at h
    | cons d rs =>
      rcases matchScheme_eq _ _ hm with hsh | hsh <;> subst hsh <;> exact h

/-- After a match begins, the scanner drops the rest of the word, so the
skip-mode output starts with whitespace (or is empty). -/
theorem leadWord_remURLAux_true (l : Str) : leadWord (remURLAux true l) = [] := by
  induction l with
  | nil => rfl
  | cons c cs ih =>
    unfold remURLAux
    split_ifs with h1 h2 h3
    · simp [leadWord, List.takeWhile_cons, h1]
    · exact ih
    · exact absurd rfl h2
    · exact absurd rfl h2

/-- The leading word of the URL-stripped output is a left part of the
input's leading word. -/
theorem leadWord_remURLAux_false (l : Str) :
    ∃ t, leadWord l = leadWord (remURLAux false l) ++ t := by
  induction l with
  | nil => exact ⟨[], rfl⟩
  | cons c cs ih =>
    unfold remURLAux
    split_ifs with h1 h2 h3
    · exact ⟨[], by simp [leadWord, List.takeWhile_cons, h1]⟩
    · exact absurd h2 (by simp)
    · refine ⟨leadWord (c :: cs), ?_⟩
      rw [leadWord_remURLAux_true]
      simp
    · obtain ⟨t, ht⟩ := ih
      refine ⟨t, ?_⟩
      simp only [leadWord, List.takeWhile_cons, h1]
      simp only [leadWord] at ht
      simp [ht]

/-- A fully non-whitespace left part embeds into the `takeWhile`. -/
theorem takeWhile_append_of_all (a t : Str) (ha : ∀ c ∈ a, isJsWS c = false) :
    ∃ u, (a ++ t).takeWhile (fun c => !isJsWS c) = a ++ u := by
  induction a with
  | nil => exact ⟨_, rfl⟩
  | cons c cs ih =>
    have hc := ha c (List.mem_cons_self _ _)
    obtain ⟨u, hu⟩ := ih (fun x hx => ha x (List.mem_cons_of_mem _ hx))
    refine ⟨u, ?_⟩
    simp [List.takeWhile_cons, hc, hu]

/-- The key step for idempotence of URL stripping: a scheme match at the
head of `c :: remURLAux false cs` is made of non-whitespace characters, so
it lies inside `c` followed by the output's leading word — which is a left
part of the input's leading word — and therefore the same match already
starts at the head of `c :: cs`. -/
theorem schemeHere_head (c : Char) (cs : Str)
    (h : schemeHere (c :: remURLAux false cs) = true) :
    schemeHere (c :: cs) = true := by
  unfold schemeHere at h
  cases hm : matchScheme (c :: remURLAux false cs) with
  | none => rw [hm] at h; simp at h
  | some r =>
    rw [hm] at h
    cases r with
    | nil => simp at h
    | cons d rs =>
      have hd : isJsWS d = false := by simpa using h
      obtain ⟨t0, hW⟩ := leadWord_remURLAux_false cs
      have hTW : cs = leadWord cs ++ cs.dropWhile (fun x => !isJsWS x) :=
        (List.takeWhile_append_dropWhile (fun x => !isJsWS x) cs).symm
      rcases matchScheme_eq _ _ hm with hsh | hsh
      · have hc : c = 'h' := by injection hsh
        have hout : remURLAux false cs =
            ['t', 't', 'p', 's', ':', '/', '/', d] ++ rs := by
          have := hsh
          rw [hc] at this
          simpa using this
        obtain ⟨u, hu⟩ := takeWhile_append_of_all ['t', 't', 'p', 's', ':', '/', '/', d] rs
          (by
            intro x hx
            simp only [List.mem_cons, List.not_mem_nil, or_false] at hx
            rcases hx with rfl | rfl | rfl | rfl | rfl | rfl | rfl | rfl
            · decide
            · decide
            · decide
            · decide
            · decide
            · decide
            · decide
            · exact hd)
        have hlead : leadWord (remURLAux false cs) =
            ['t', 't', 'p', 's', ':', '/', '/', d] ++ u := by
          rw [leadWord, hout]
          exact hu
        have hcs : cs = ['t', 't', 'p', 's', ':', '/', '/', d] ++
            (u ++ t0 ++ cs.dropWhile (fun x => !isJsWS x)) := by
          conv_lhs => rw [hTW]
          rw [hW, hlead]
          simp
        rw [hc, hcs]
        show (!isJsWS d) = true
        simp [hd]
      · have hc : c = 'h' := by injection hsh
        have hout : remURLAux false cs =
            ['t', 't', 'p', ':', '/', '/', d] ++ rs := by
          have := hsh
          rw [hc] at this
          simpa using this
        obtain ⟨u, hu⟩ := takeWhile_append_of_all ['t', 't', 'p', ':', '/', '/', d] rs
          (by
            intro x hx
            simp only [List.mem_cons, List.not_mem_nil, or_false] at hx
            rcases hx with rfl | rfl | rfl | rfl | rfl | rfl | rfl
            · decide
            · decide
            · decide
            · decide
            · decide
            · decide
            · exact hd)
        have hlead : leadWord (remURLAux false cs) =
            ['t', 't', 'p', ':', '/', '/', d] ++ u := by
          rw [leadWord, hout]
          exact hu
        have hcs : cs = ['t', 't', 'p', ':', '/', '/', d] ++
            (u ++ t0 ++ cs.dropWhile (fun x => !isJsWS x)) := by
          conv_lhs => rw [hTW]
          rw [hW, hlead]
          simp
        rw [hc, hcs]
        show (!isJsWS d) = true
        simp [hd]

/-- `NoTrig` passes to tails. -/
theorem NoTrig.tail (c : Char) (cs : Str) (h : NoTrig (c :: cs)) : NoTrig cs :=
  fun s t heq => h s (c :: t) (by rw [heq]; rfl)

/-- The output of the URL scanner never contains the start of a match. -/
theorem noTrig_remURLAux (l : Str) : ∀ b, NoTrig (remURLAux b l) := by
  induction l with
  | nil =>
    intro b s t heq
    simp only [remURLAux] at heq
    have hs : s = [] := (List.append_eq_nil.mp heq.symm).2
    rw [hs]
    rfl
  | cons c cs ih =>
    intro b
    unfold remURLAux
    split_ifs with h1 h2 h3
    · -- whitespace head is kept; a match can never start on it
      intro s t heq
      cases t with
      | nil =>
        simp only [List.nil_append] at heq
        rw [← heq]
        exact schemeHere_false_of_ws c _ h1
      | cons x xs =>
        simp only [List.cons_append, List.cons.injEq] at heq
        exact ih false s xs heq.2
    · exact ih true
    · exact ih true
    · -- kept head with no match here: a later pass cannot create one
      intro s t heq
      cases t with
      | nil =>
        simp only [List.nil_append] at heq
        rw [← heq]
        cases hs : schemeHere (c :: remURLAux false cs)
        · rfl
        · exact absurd (schemeHere_head c cs hs) h3
      | cons x xs =>
        simp only [List.cons_append, List.cons.injEq] at heq
        exact ih false s xs heq.2

/-- A string with no match anywhere is a fixpoint of the URL scanner. -/
theorem remURLAux_eq_self (l : Str) (h : NoTrig l) : remURLAux false l = l := by
  induction l with
  | nil => rfl
  | cons c cs ih =>
    have hcs := ih (NoTrig.tail c cs h)
    have hhead : schemeHere (c :: cs) = false := h (c :: cs) [] rfl
    unfold remURLAux
    split_ifs with h1 h2 h3
    · rw [hcs]
    · exact absurd h2 (by simp)
    · exact absurd h3 (by simp [hhead])
    · rw [hcs]

/-- The trimmed output is a left part of its input. -/
theorem jsTrimEnd_append (l : Str) :
    l = jsTrimEnd l ++ (l.reverse.takeWhile isJsWS).reverse := by
  unfold jsTrimEnd
  rw [← List.reverse_append, List.takeWhile_append_dropWhile, List.reverse_reverse]

/-- `NoTrig` survives end-trimming: a match inside the trimmed string would
extend to a match inside the original. -/
theorem noTrig_jsTrimEnd (l : Str) (h : NoTrig l) : NoTrig (jsTrimEnd l) := by
  intro s t heq
  cases hs : schemeHere s
  · rfl
  · exfalso
    have hl : l = t ++ (s ++ (l.reverse.takeWhile isJsWS).reverse) := by
      conv_lhs => rw [jsTrimEnd_append l]
      rw [heq]
      simp
    have := h _ _ hl
    rw [schemeHere_append s _ hs] at this
    exact absurd this (by simp)

/-- Dropping twice drops once. -/
theorem dropWhile_self (p : Char → Bool) (l : Str) :
    List.dropWhile p (List.dropWhile p l) = List.dropWhile p l := by
  induction l with
  | nil => rfl
  | cons c cs ih =>
    by_cases h : p c
    · simp [List.dropWhile_cons, h, ih]
    · simp [List.dropWhile_cons, h]

/-- Idempotence of end-trimming. -/
theorem jsTrimEnd_idem (l : Str) : jsTrimEnd (jsTrimEnd l) = jsTrimEnd l := by
  unfold jsTrimEnd
  rw [List.reverse_reverse, dropWhile_self]

/-- A pointwise-identity map is the identity. -/
theorem map_eq_self_of (f : Char → Char) (l : Str) (h : ∀ c ∈ l, f c = c) :
    l.map f = l := by
  induction l with
  | nil => rfl
  | cons c cs ih =>
    simp [h c (List.mem_cons_self _ _), ih (fun x hx => h x (List.mem_cons_of_mem _ hx))]

/-- The per-line normalization transformation is idempotent. -/
theorem normLine_idem (s : Str) : normLine (normLine s) = normLine s := by
  have hchars := normLine_chars s
  have hzw : removeZW (normLine s) = normLine s := by
    unfold removeZW
    refine List.filter_eq_self.mpr ?_
    intro c hc
    simpa using (hchars c hc).1
  have htab : tabToSpace (normLine s) = normLine s := by
    unfold tabToSpace
    refine map_eq_self_of _ _ ?_
    intro c hc
    simp [(hchars c hc).2]
  have hnt : NoTrig (normLine s) :=
    noTrig_jsTrimEnd _ (noTrig_remURLAux _ false)
  have hurl : removeURLs (normLine s) = normLine s := remURLAux_eq_self _ hnt
  show jsTrimEnd (removeURLs (tabToSpace (removeZW (normLine s)))) = normLine s
  rw [hzw, htab, hurl]
  show jsTrimEnd (jsTrimEnd (removeURLs (tabToSpace (removeZW s)))) = normLine s
  rw [jsTrimEnd_idem]
  rfl

/-- Every line kept by the normalization loop is the image of some source
line under the per-line transformation. -/
theorem normalizeCore_shape (lines : List Str) :
    ∀ b i, ∀ nl ∈ normalizeCore b i lines, ∃ s, nl.raw = normLine s := by
  induction lines with
  | nil => intro b i nl h; simp [normalizeCore] at h
  | cons l ls ih =>
    intro b i nl h
    unfold normalizeCore at h
    split_ifs at h with h1 h2
    · exact ih _ _ nl h
    · exact ih _ _ nl h
    · rcases List.mem_cons.mp h with rfl | h'
      · exact ⟨l, rfl⟩
      · exact ih _ _ nl h'

/-- Re-running the loop over already-normalized, fence-free line texts
reproduces the same texts. -/
theorem normalizeCore_fixed (rs : List NormLine) :
    ∀ j, (∀ l ∈ rs, isFence l.raw = false ∧ normLine l.raw = l.raw) →
    (normalizeCore false j (rs.map (fun nl => nl.raw))).map (fun nl => nl.raw) =
      rs.map (fun nl => nl.raw) := by
  induction rs with
  | nil => intro j _; rfl
  | cons r rs ih =>
    intro j h
    obtain ⟨hf, hfix⟩ := h r (List.mem_cons_self _ _)
    simp only [List.map_cons, normalizeCore, hf, Bool.false_eq_true, if_false]
    rw [hfix, ih (j + 1) (fun x hx => h x (List.mem_cons_of_mem _ hx))]

/-- Inversion of a successful `normalizeLines` run. -/
theorem normalizeLines_ok (lines : List Str) (out : List NormLine)
    (h : normalizeLines lines = Except.ok out) :
    normalizeCore false 1 lines = out ∧ out ≠ [] := by
  unfold normalizeLines at h
  split at h
  · exact absurd h (by simp)
  · simp only [Except.ok.injEq] at h
    subst h
    constructor
    · rfl
    · assumption

/-- C7, amended: when normalization succeeds and none of the produced line
texts looks like a code fence, normalizing the produced texts succeeds and
yields the same sequence of texts.  (The counterexample forces both
restrictions: zero-width-space removal can mint new fence lines, and a
run whose lines are all discarded crashes in the misplaced fallback.) -/
theorem C7_norm_idempotent_amended (lines : List Str) (out : List NormLine)
    (h : normalizeLines lines = Except.ok out)
    (hnf : ∀ l ∈ out, isFence l.raw = false) :
    ∃ out2, normalizeLines (out.map (fun nl => nl.raw)) = Except.ok out2 ∧
      out2.map (fun nl => nl.raw) = out.map (fun nl => nl.raw) := by
  obtain ⟨hcore, hne⟩ := normalizeLines_ok lines out h
  have hfix : ∀ l ∈ out, isFence l.raw = false ∧ normLine l.raw = l.raw := by
    intro l hl
    refine ⟨hnf l hl, ?_⟩
    obtain ⟨s0, hs0⟩ := normalizeCore_shape lines false 1 l (by rw [hcore]; exact hl)
    rw [hs0, normLine_idem]
  have h2 := normalizeCore_fixed out 1 hfix
  refine ⟨normalizeCore false 1 (out.map (fun nl => nl.raw)), ?_, h2⟩
  cases hres : normalizeCore false 1 (out.map (fun nl => nl.raw)) with
  | nil =>
    exfalso
    rw [hres] at h2
    have : out.map (fun nl => nl.raw) = [] := h2.symm
    exact hne (List.map_eq_nil_iff.mp this)
  | cons a as =>
    unfold normalizeLines
    rw [hres]

/-- Witness for the amended C7 at a concrete input. -/
theorem C7_witness :
    ∃ out2, normalizeLines ([(⟨"hello world".toList, 1⟩ : NormLine)].map
        (fun nl => nl.raw)) = Except.ok out2 ∧
      out2.map (fun nl => nl.raw) =
        [(⟨"hello world".toList, 1⟩ : NormLine)].map (fun nl => nl.raw) :=
  C7_norm_idempotent_amended ["hello world".toList] [⟨"hello world".toList, 1⟩]
    (by rfl) (by decide)

end QuizGen
